import Mathlib

/-!
Verification development for the wildlife-classification ML-operations
repository.  The repository's own logic (inference ranking, batch error
isolation, statistics, drift detection, the two-phase training control loop)
is embedded shallowly below; external capabilities (the neural network, image
decoding, the exponential inside softmax, the filesystem, the clock) appear as
parameters.  Machine floats are modelled by exact rationals.
-/

/- ## Data model (src/ml-pipeline/src/inference/predictor.py) -/

/-- One prediction record as built by `Predictor.predict_single`.  The
`timestamp` field of the source record is the wall clock, an external input
touched by no claim, and is omitted. -/
structure PredictionResult where
  image_path : String
  predicted_species : String
  confidence : ℚ
  is_confident : Bool
  top_predictions : List (String × ℚ)
deriving DecidableEq

/-- An element of a batch result list: either a full prediction record or the
error record `\x7b'image_path': ..., 'error': ...\x7d` built by
`predict_batch` when one image fails. -/
inductive BatchItem where
  | ok (r : PredictionResult)
  | err (image_path : String) (error : String)
deriving DecidableEq

/-- The `Predictor` object.  `Img` is the (opaque) type of a decoded,
preprocessed image tensor; the loaded model is an opaque score function
`Img → List ℚ` (class logits), absent while unloaded. -/
structure Predictor (Img : Type) where
  species_mapping : List String
  confidence_threshold : ℚ
  model : Option (Img → List ℚ)
  is_loaded : Bool

/-- `Predictor.load_model`: a no-op when already loaded, otherwise installs
the model and marks the predictor loaded.  (The weight file and model class
are abstracted into the score function `m`.) -/
def load_model {Img : Type} (p : Predictor Img) (m : Img → List ℚ) : Predictor Img :=
  if p.is_loaded then p
  else { p with model := some m, is_loaded := true }

/-- The message of the `RuntimeError` raised by `predict_single` on an
unloaded predictor. -/
def notLoadedMsg : String := "Model not loaded. Call load_model() first."

/-- Maximum of a list of rationals, 0 on the empty list (callers guard
emptiness the way the source guards empty tensors). -/
def listMax : List ℚ → ℚ
  | [] => 0
  | x :: xs => xs.foldl max x

/-- Minimum of a list of rationals, 0 on the empty list. -/
def listMin : List ℚ → ℚ
  | [] => 0
  | x :: xs => xs.foldl min x

/-- Numerically stable softmax as `F.softmax` computes it: subtract the
maximal logit, exponentiate, divide by the sum.  The exponential `e` is the
external numeric capability; every theorem below holds for an arbitrary
`e`. -/
def softmax (e : ℚ → ℚ) (scores : List ℚ) : List ℚ :=
  let mx := listMax scores
  let exps := scores.map (fun s => e (s - mx))
  let se := exps.sum
  exps.map (fun v => v / se)

/-- Scan modelling `torch.max` over a 1-d tensor: current best index `bi`,
best value `bv`, and the index `s` of the next element; returns the value and
the index of its first occurrence. -/
def firstMaxFrom (bi : Nat) (bv : ℚ) (s : Nat) : List ℚ → Nat × ℚ
  | [] => (bi, bv)
  | x :: xs => if bv < x then firstMaxFrom s x (s + 1) xs else firstMaxFrom bi bv (s + 1) xs

/-- The ordering used to rank class probabilities for `torch.topk`:
descending probability, ties broken in favour of the lower class index. -/
def topRel (a b : Nat × ℚ) : Prop :=
  b.2 < a.2 ∨ (a.2 = b.2 ∧ a.1 ≤ b.1)

instance topRel.decRel : DecidableRel topRel := fun a b => by
  unfold topRel; infer_instance

instance topRel.total : IsTotal (Nat × ℚ) topRel where
  total a b := by
    rcases lt_trichotomy a.2 b.2 with h | h | h
    · exact Or.inr (Or.inl h)
    · rcases Nat.le_total a.1 b.1 with h1 | h1
      · exact Or.inl (Or.inr ⟨h, h1⟩)
      · exact Or.inr (Or.inr ⟨h.symm, h1⟩)
    · exact Or.inl (Or.inl h)

instance topRel.trans : IsTrans (Nat × ℚ) topRel where
  trans a b c hab hbc := by
    rcases hab with h | ⟨he, hi⟩ <;> rcases hbc with h2 | ⟨he2, hi2⟩
    · exact Or.inl (h2.trans h)
    · exact Or.inl (he2 ▸ h)
    · exact Or.inl (he ▸ h2)
    · exact Or.inr ⟨he.trans he2, hi.trans hi2⟩

/-- Model of `torch.topk(probs, k)` with `sorted=True`: the `k` largest
(index, probability) pairs in descending order, ties by lower index (the
documented CPU behaviour, and the ordering the specification states). -/
def topk (k : Nat) (probs : List ℚ) : List (Nat × ℚ) :=
  (List.insertionSort topRel probs.enum).take k

/-- `Predictor.predict_single`.  `decode` is the external image pipeline
(`Image.open` + `convert` + the transform chain), which may fail; its failure
message, like every other raised error, is the `String` of the `error`
branch.  The index guards reproduce the `KeyError` raised when the model
produces a class index outside the species mapping, and the `torch` errors on
an empty score tensor or an oversized `k`. -/
def predict_single {Img : Type} (e : ℚ → ℚ) (decode : String → Except String Img)
    (p : Predictor Img) (image_path : String) : Except String PredictionResult :=
  if p.is_loaded then
    match decode image_path with
    | .error msg => .error msg
    | .ok img =>
      match p.model with
      | none => .error "TypeError: NoneType object is not callable"
      | some m =>
        let probs := softmax e (m img)
        match probs with
        | [] => .error "max(): Expected reduction dim to be specified for input.numel() == 0"
        | c0 :: rest =>
          let best := firstMaxFrom 0 c0 1 rest
          if p.species_mapping.length ≤ best.1 then .error "KeyError"
          else
            let k := min 3 p.species_mapping.length
            if probs.length < k then .error "selected index k out of range"
            else
              let chosen := topk k probs
              if chosen.any (fun iv => p.species_mapping.length ≤ iv.1) then .error "KeyError"
              else
                .ok { image_path := image_path
                      predicted_species := p.species_mapping.getD best.1 ""
                      confidence := best.2
                      is_confident := decide (p.confidence_threshold ≤ best.2)
                      top_predictions :=
                        chosen.map (fun iv => (p.species_mapping.getD iv.1 "", iv.2)) }
  else .error notLoadedMsg

/-- The try/except body of the `predict_batch` loop: a failing
`predict_single` becomes an error record carrying the image reference and the
stringified exception. -/
def tryPredict {Img : Type} (e : ℚ → ℚ) (decode : String → Except String Img)
    (p : Predictor Img) (path : String) : BatchItem :=
  match predict_single e decode p path with
  | .ok r => .ok r
  | .error msg => .err path msg

/-- `Predictor.predict_batch`: the source loop appends one item per input
image to a growing result list. -/
def predict_batch {Img : Type} (e : ℚ → ℚ) (decode : String → Except String Img)
    (p : Predictor Img) (image_paths : List String) : List BatchItem :=
  image_paths.foldl (fun results path => results ++ [tryPredict e decode p path]) []

/- ## Directory enumeration (`Predictor.predict_directory`) -/

/-- A file of the searched directory tree: its path rendered as a character
list, and whether it sits directly in the directory (`top = true`) or in some
subdirectory.  Only regular files are modelled. -/
structure FileEntry where
  name : List Char
  top : Bool
deriving DecidableEq

/-- The `valid_extensions` set of the source, as a list. -/
def valid_extensions : List (List Char) :=
  [".jpg".toList, ".jpeg".toList, ".png".toList, ".bmp".toList]

/-- `pathlib.PurePath.suffix`: the last dot and what follows it, provided the
dot is neither the first nor the last character of the name. -/
def pySuffix (name : List Char) : List Char :=
  match name.reverse.findIdx? (fun c => c = '.') with
  | none => []
  | some j =>
    let i := name.length - 1 - j
    if 0 < i ∧ i < name.length - 1 then name.drop i else []

/-- ASCII lowering of a file name, as `str.lower` acts on the ASCII
extensions at issue. -/
def lowerName (n : List Char) : List Char := n.map Char.toLower

/-- The file list built by `predict_directory`.  Recursive mode runs one
`rglob` pass per extension over the whole tree; `pathlib` globbing on a
POSIX filesystem is case-sensitive, so a pass for `*.jpg` keeps exactly the
names ending in the four lowercase extensions.  Non-recursive mode lists the
top level and keeps the names whose `suffix.lower()` is a valid extension.
(The Python set iteration order is unspecified; the fixed order used here
only affects ordering, which no claim depends on.) -/
def list_image_files (fs : List FileEntry) (recursive : Bool) : List FileEntry :=
  if recursive then
    valid_extensions.foldl (fun acc ext => acc ++ fs.filter (fun f => ext.isSuffixOf f.name)) []
  else
    fs.filter (fun f => f.top && decide (lowerName (pySuffix f.name) ∈ valid_extensions))

/-- `Predictor.predict_directory`: enumerate image files, then delegate to
`predict_batch` on their stringified paths. -/
def predict_directory {Img : Type} (e : ℚ → ℚ) (decode : String → Except String Img)
    (p : Predictor Img) (fs : List FileEntry) (recursive : Bool) : List BatchItem :=
  predict_batch e decode p ((list_image_files fs recursive).map (fun f => String.mk f.name))

/- ## Batch statistics (`Predictor.get_prediction_statistics`) -/

/-- The dictionary returned by `get_prediction_statistics`.  The species
histogram dictionary is modelled as its counting function. -/
structure PredStats where
  total_predictions : Nat
  confident_predictions : Nat
  confidence_rate : ℚ
  average_confidence : ℚ
  species_distribution : String → Nat
  errors : Nat

/-- The successful record held by a batch item, if any. -/
def BatchItem.okResult : BatchItem → Option PredictionResult
  | .ok r => some r
  | .err _ _ => none

/-- Whether a batch item is an error record (carries an `error` key). -/
def BatchItem.isErr : BatchItem → Bool
  | .ok _ => false
  | .err _ _ => true

/-- `Predictor.get_prediction_statistics`, with the source's guarded
divisions (`if valid_predictions else 0`). -/
def get_prediction_statistics (preds : List BatchItem) : PredStats :=
  let valid := preds.filterMap BatchItem.okResult
  let confident := valid.filter (fun r => r.is_confident)
  let total_confidence := (valid.map (fun r => r.confidence)).sum
  { total_predictions := valid.length
    confident_predictions := confident.length
    confidence_rate := if valid.isEmpty then 0 else (confident.length : ℚ) / valid.length
    average_confidence := if valid.isEmpty then 0 else total_confidence / valid.length
    species_distribution := fun s => (valid.map (fun r => r.predicted_species)).count s
    errors := preds.length - valid.length }

/- ## Session statistics (src/ml-pipeline/src/monitoring/monitor.py,
`PredictionLogger`) -/

/-- The dictionary returned by `get_session_statistics` when the log file
exists.  `np.std` returns the square root of the variance, an irrational
number in general; the field `std_confidence_sq` holds its exact square (the
population variance, `ddof = 0`), which determines it. -/
structure SessionStats where
  total_predictions : Nat
  successful_predictions : Nat
  errors : Nat
  average_confidence : ℚ
  min_confidence : ℚ
  max_confidence : ℚ
  std_confidence_sq : ℚ
  species_distribution : String → Nat

/-- The statistics computed from the parsed records of an existing session
log file. -/
def get_session_statistics_content (recs : List BatchItem) : SessionStats :=
  let error_count := recs.countP (fun r => r.isErr)
  let confs := recs.filterMap (fun r => (r.okResult).map (fun x => x.confidence))
  let n : ℚ := confs.length
  let mu := confs.sum / n
  { total_predictions := recs.length
    successful_predictions := recs.length - error_count
    errors := error_count
    average_confidence := if confs.isEmpty then 0 else mu
    min_confidence := if confs.isEmpty then 0 else listMin confs
    max_confidence := if confs.isEmpty then 0 else listMax confs
    std_confidence_sq := if confs.isEmpty then 0 else ((confs.map (fun c => (c - mu) ^ 2)).sum) / n
    species_distribution :=
      fun s => (recs.filterMap (fun r => (r.okResult).map (fun x => x.predicted_species))).count s }

/-- `PredictionLogger.get_session_statistics`.  The argument is the durable
session log: `none` when the log file does not exist (the constructor only
chooses the file name; the file is first created by `log_prediction`), in
which case the source returns the empty dictionary, modelled as `none`. -/
def get_session_statistics : Option (List BatchItem) → Option SessionStats
  | none => none
  | some recs => some (get_session_statistics_content recs)

/-- `PredictionLogger.log_prediction`: appends one record to the session log,
creating the file on first use. -/
def log_prediction (log : Option (List BatchItem)) (r : BatchItem) : Option (List BatchItem) :=
  some (log.getD [] ++ [r])

/-- The durable log of a freshly constructed `PredictionLogger`: the session
file name is chosen but the file does not exist yet. -/
def fresh_session_log : Option (List BatchItem) := none

/-- The zeroed/empty statistics dictionary of an empty session. -/
def zeroSessionStats : SessionStats :=
  { total_predictions := 0
    successful_predictions := 0
    errors := 0
    average_confidence := 0
    min_confidence := 0
    max_confidence := 0
    std_confidence_sq := 0
    species_distribution := fun _ => 0 }

/- ## Drift detection (`ModelMonitor.detect_performance_drift`) -/

/-- One entry of `metrics_history`: only the optional `accuracy` metric is
observed by drift detection. -/
structure MetricEntry where
  accuracy : Option ℚ
deriving DecidableEq, Inhabited

/-- The dictionary returned by `detect_performance_drift`: the
insufficient-data branch or the full report. -/
inductive DriftResult where
  | insufficient (drift_detected : Bool) (reason : String)
  | report (drift_detected : Bool) (accuracy_drop threshold oldest_accuracy recent_accuracy : ℚ)
      (recommendation : String)
deriving DecidableEq

/-- The `drift_detected` field of either dictionary shape. -/
def DriftResult.drift_detected : DriftResult → Bool
  | .insufficient d _ => d
  | .report d _ _ _ _ _ => d

/-- `ModelMonitor.detect_performance_drift` over the recorded history.
`history[-10:]` is `drop (length - 10)`; a missing accuracy defaults to 0 as
in `m.get('accuracy', 0)`; `np.mean` is sum over length. -/
def detect_performance_drift (hist : List MetricEntry) (threshold : ℚ) : DriftResult :=
  if hist.length < 2 then .insufficient false "Insufficient data"
  else
    let recent := hist.drop (hist.length - 10)
    let oldest := hist.headI
    let recent_acc := ((recent.map (fun m => m.accuracy.getD 0)).sum) / (recent.length : ℚ)
    let oldest_acc := oldest.accuracy.getD 0
    let accuracy_drop := oldest_acc - recent_acc
    .report (decide (threshold < accuracy_drop)) accuracy_drop threshold oldest_acc recent_acc
      (if threshold < accuracy_drop then "Retrain model" else "Model performing well")

/- ## Trainer control flow (src/ml-pipeline/src/training/trainer.py) -/

/-- `WildlifeModel.freeze_backbone` on the `requires_grad` mask of the
parameter list: every parameter except the last is frozen
(`list(...parameters())[:-1]`). -/
def freeze_backbone_mask (g : List Bool) : List Bool :=
  g.mapIdx (fun i b => if i + 1 = g.length then b else false)

/-- `WildlifeModel.unfreeze_backbone`: every parameter becomes trainable. -/
def unfreeze_backbone_mask (g : List Bool) : List Bool :=
  g.map (fun _ => true)

/-- The observation recorded for one executed epoch of `Trainer.fit`: the
epoch number, the `requires_grad` mask in force during the epoch, the
validation loss returned by `validate`, the best validation loss and
no-improvement counter entering the epoch, whether a checkpoint was saved,
and the counter leaving the epoch. -/
structure EpochRec where
  epoch : Nat
  mask : List Bool
  val_loss : ℚ
  bestBefore : Option ℚ
  patBefore : Nat
  saved : Bool
  patAfter : Nat
deriving DecidableEq, Inhabited

/-- `val_loss < best_val_loss`, where `none` stands for the initial
`float('inf')`. -/
def ltBest (v : ℚ) : Option ℚ → Bool
  | none => true
  | some b => decide (v < b)

/-- The mutable state threaded through the epoch loop of `Trainer.fit`. -/
structure FitState where
  mask : List Bool
  best : Option ℚ
  pat : Nat

/-- The conditional unfreeze performed at the start of each epoch of
`Trainer.fit`: when freezing was requested and the epoch index equals the
configured unfreeze epoch, `unfreeze_backbone` runs on the mask. -/
def epoch_mask (frz : Bool) (unfA : Nat) (m : List Bool) (e : Nat) : List Bool :=
  if frz ∧ e = unfA then unfreeze_backbone_mask m else m

/-- The epoch loop of `Trainer.fit`, driven by the sequence of validation
losses the external optimisation produces (one per epoch that would run).
Each iteration: unfreeze once the epoch index reaches the configured
unfreeze epoch (only when freezing was requested), then either save a
checkpoint and reset the counter on strict improvement, or increment the
counter and stop once it reaches the hard-coded `max_patience = 5`. -/
def fit_go (frz : Bool) (unfA : Nat) : FitState → Nat → List ℚ → List EpochRec
  | _, _, [] => []
  | st, e, v :: rest =>
    let mask' := epoch_mask frz unfA st.mask e
    if ltBest v st.best then
      ⟨e, mask', v, st.best, st.pat, true, 0⟩ :: fit_go frz unfA ⟨mask', some v, 0⟩ (e + 1) rest
    else
      let r : EpochRec := ⟨e, mask', v, st.best, st.pat, false, st.pat + 1⟩
      if 5 ≤ st.pat + 1 then [r] else r :: fit_go frz unfA ⟨mask', st.best, st.pat + 1⟩ (e + 1) rest

/-- The `requires_grad` mask right after `Trainer.fit` starts, for a model of
`P` parameters (a fresh pretrained model has every parameter trainable):
`freeze_backbone` is applied when requested. -/
def init_mask (P : Nat) (frz : Bool) : List Bool :=
  if frz then freeze_backbone_mask (List.replicate P true) else List.replicate P true

/-- The trace of one `Trainer.fit` run: `P` parameters, freezing flag,
configured unfreeze epoch, and the validation loss each epoch would
produce.  Epochs are numbered from 1 as in `range(1, epochs + 1)`. -/
def fit_trace (P : Nat) (frz : Bool) (unfA : Nat) (losses : List ℚ) : List EpochRec :=
  fit_go frz unfA ⟨init_mask P frz, none, 0⟩ 1 losses

/-- The best (smallest) validation loss of a loss sequence, folded from an
initial best exactly the way the loop updates `best_val_loss` (`none` is
`float('inf')`). -/
def foldBest (b : Option ℚ) (l : List ℚ) : Option ℚ :=
  l.foldl (fun acc v => if ltBest v acc then some v else acc) b

/- ## Helper lemmas -/

theorem foldl_append_singleton {α β : Type} (f : α → β) :
    ∀ (l : List α) (acc : List β),
      l.foldl (fun results path => results ++ [f path]) acc = acc ++ l.map f := by
  intro l
  induction l with
  | nil => intro acc; simp
  | cons x xs ih => intro acc; simp [ih, List.append_assoc]

/-- The accumulation loop of `predict_batch` is a per-item map. -/
theorem predict_batch_eq_map {Img : Type} (e : ℚ → ℚ) (decode : String → Except String Img)
    (p : Predictor Img) (image_paths : List String) :
    predict_batch e decode p image_paths = image_paths.map (tryPredict e decode p) := by
  simpa [predict_batch] using foldl_append_singleton (tryPredict e decode p) image_paths []

/- ## C1 -/

/-- C1: `predict_batch` returns one item per input image, in input order;
item `i` is the `predict_single` result on image `i` when that call
succeeds, and an error record carrying that image path and the error
message when it fails, independently of every other image — so one failing
image never prevents the remaining items from being processed. -/
theorem predict_batch_partial_failure_isolation {Img : Type} (e : ℚ → ℚ)
    (decode : String → Except String Img) (p : Predictor Img) (image_paths : List String) :
    (predict_batch e decode p image_paths).length = image_paths.length ∧
    ∀ (i : ℕ) (path : String), image_paths[i]? = some path →
      (∀ r, predict_single e decode p path = .ok r →
        (predict_batch e decode p image_paths)[i]? = some (.ok r)) ∧
      (∀ msg, predict_single e decode p path = .error msg →
        (predict_batch e decode p image_paths)[i]? = some (.err path msg)) := by
  rw [predict_batch_eq_map]
  refine ⟨by simp, ?_⟩
  intro i path hpath
  constructor
  · intro r hr
    simp [List.getElem?_map, hpath, tryPredict, hr]
  · intro msg hmsg
    simp [List.getElem?_map, hpath, tryPredict, hmsg]

-- Spec example 3 for C1: three images, the second unreadable, give three
-- results with exactly the second an error record.
set_option maxRecDepth 10000 in
example :
    (predict_batch id
      (fun s => if s = "b" then .error "cannot identify image file" else .ok ())
      (⟨["Lion", "Elephant", "Zebra"], 1/2, some (fun _ => [5, 1, 1/10]), true⟩ : Predictor Unit)
      ["a", "b", "c"]).map (fun it => it.isErr) = [false, true, false] := by
  with_unfolding_all decide

/- ## C3 -/

/-- C3: the predictor is a one-way two-state machine.  `load_model` on an
already loaded predictor is a no-op, `load_model` always leaves the
predictor loaded (and no operation unloads it: `predict_single` takes the
state read-only), and `predict_single` on an unloaded predictor fails with
the model-not-loaded error. -/
theorem predictor_two_state_machine {Img : Type} (e : ℚ → ℚ)
    (decode : String → Except String Img) (p : Predictor Img) (m : Img → List ℚ)
    (image_path : String) :
    (p.is_loaded = true → load_model p m = p) ∧
    (load_model p m).is_loaded = true ∧
    (p.is_loaded = false → predict_single e decode p image_path = .error notLoadedMsg) := by
  refine ⟨fun h => by simp [load_model, h], ?_, fun h => by simp [predict_single, h]⟩
  by_cases h : p.is_loaded
  · simp [load_model, h]
  · simp [load_model, h]

/- ## C2 -/

/-- C2: with fewer than 2 history entries, drift detection reports the
insufficient-data dictionary with `drift_detected = False`; otherwise it
reports drift exactly when the first-ever recorded accuracy minus the mean
accuracy of the most recent `min(10, length)` snapshots strictly exceeds the
threshold, so for a nonnegative threshold an accuracy improvement (recent
mean at least the oldest accuracy) is never flagged. -/
theorem detect_drift_characterisation (hist : List MetricEntry) (t : ℚ) :
    (hist.length < 2 → detect_performance_drift hist t = .insufficient false "Insufficient data") ∧
    (2 ≤ hist.length →
      ∃ recent recentMean oldestAcc,
        oldestAcc = hist.headI.accuracy.getD 0 ∧
        recent = (hist.reverse.take 10).reverse ∧
        recent.length = min 10 hist.length ∧
        recentMean = ((recent.map (fun m => m.accuracy.getD 0)).sum) / (recent.length : ℚ) ∧
        detect_performance_drift hist t =
          .report (decide (t < oldestAcc - recentMean)) (oldestAcc - recentMean) t oldestAcc
            recentMean
            (if t < oldestAcc - recentMean then "Retrain model" else "Model performing well") ∧
        ((detect_performance_drift hist t).drift_detected = true ↔ t < oldestAcc - recentMean) ∧
        (0 ≤ t → oldestAcc ≤ recentMean →
          (detect_performance_drift hist t).drift_detected = false)) := by
  constructor
  · intro h
    simp [detect_performance_drift, h]
  · intro h
    have hrev : (hist.reverse.take 10).reverse = hist.drop (hist.length - 10) := by
      rw [List.take_reverse, List.reverse_reverse]
    have hlen : (hist.drop (hist.length - 10)).length = min 10 hist.length := by
      rw [List.length_drop]; omega
    have hnlt : ¬ hist.length < 2 := by omega
    refine ⟨hist.drop (hist.length - 10), _, _, rfl, hrev.symm, hlen, rfl, ?_, ?_, ?_⟩
    · simp only [detect_performance_drift, hnlt, if_false]
    · simp only [detect_performance_drift, hnlt, if_false, DriftResult.drift_detected,
        decide_eq_true_eq]
    · intro ht himp
      have hno : ¬ (t < hist.headI.accuracy.getD 0 -
          ((hist.drop (hist.length - 10)).map (fun m => m.accuracy.getD 0)).sum /
            ((hist.drop (hist.length - 10)).length : ℚ)) := by
        intro hlt
        linarith
      simp only [detect_performance_drift, hnlt, if_false, DriftResult.drift_detected,
        decide_eq_false hno]

-- Spec example 5 for C2: oldest accuracy 0.9, the last ten all 0.8:
-- accuracy drop 0.1 exceeds the 0.05 threshold, so drift is reported.
set_option maxRecDepth 10000 in
example :
    (detect_performance_drift (⟨some (9/10)⟩ :: List.replicate 10 ⟨some (8/10)⟩)
      (1/20)).drift_detected = true ∧
    (detect_performance_drift [⟨some (9/10)⟩] (1/20)) =
      .insufficient false "Insufficient data" := by
  constructor
  · with_unfolding_all decide
  · with_unfolding_all decide

/- ## C5 -/

/-- The successful records of a list of batch items are counted by the
non-error predicate. -/
theorem length_filterMap_okResult (preds : List BatchItem) :
    (preds.filterMap BatchItem.okResult).length = preds.countP (fun it => !it.isErr) := by
  induction preds with
  | nil => rfl
  | cons x xs ih =>
    cases x <;>
      simp [List.filterMap_cons, List.countP_cons, BatchItem.okResult, BatchItem.isErr, ih]

/-- C5: `get_prediction_statistics` is total and safe on every result list:
counts are the counts over non-error results, the error count is both the
count of error records and the difference of totals, the rate and mean are
the guarded ratios and both collapse to 0 on zero non-error results (no
division error), and the species histogram counts each label among the
non-error results. -/
theorem get_prediction_statistics_safe (preds : List BatchItem) :
    (get_prediction_statistics preds).total_predictions =
        preds.countP (fun it => !it.isErr) ∧
    (get_prediction_statistics preds).confident_predictions =
        ((preds.filterMap BatchItem.okResult).filter (fun r => r.is_confident)).length ∧
    (get_prediction_statistics preds).errors = preds.countP (fun it => it.isErr) ∧
    (get_prediction_statistics preds).errors +
        (get_prediction_statistics preds).total_predictions = preds.length ∧
    ((get_prediction_statistics preds).total_predictions = 0 →
      (get_prediction_statistics preds).confidence_rate = 0 ∧
      (get_prediction_statistics preds).average_confidence = 0) ∧
    ((get_prediction_statistics preds).total_predictions ≠ 0 →
      (get_prediction_statistics preds).confidence_rate *
          (get_prediction_statistics preds).total_predictions =
          (get_prediction_statistics preds).confident_predictions ∧
      (get_prediction_statistics preds).average_confidence *
          (get_prediction_statistics preds).total_predictions =
          ((preds.filterMap BatchItem.okResult).map (fun r => r.confidence)).sum) ∧
    (∀ lbl, (get_prediction_statistics preds).species_distribution lbl =
      (preds.filterMap BatchItem.okResult).countP (fun r => r.predicted_species == lbl)) := by
  have hcount : (preds.filterMap BatchItem.okResult).length =
      preds.countP (fun it => !it.isErr) := length_filterMap_okResult preds
  have hsplit : preds.length =
      preds.countP (fun it => it.isErr) + preds.countP (fun it => !it.isErr) := by
    simpa using List.length_eq_countP_add_countP (fun it => BatchItem.isErr it) preds
  refine ⟨by simp [get_prediction_statistics, hcount], by simp [get_prediction_statistics], ?_, ?_, ?_, ?_, ?_⟩
  · simp only [get_prediction_statistics]
    omega
  · simp only [get_prediction_statistics]
    omega
  · intro h0
    have hnil : preds.filterMap BatchItem.okResult = [] := by
      simpa [get_prediction_statistics, List.length_eq_zero] using h0
    simp [get_prediction_statistics, hnil]
  · intro h0
    have hne : preds.filterMap BatchItem.okResult ≠ [] := by
      intro hnil
      exact h0 (by simp [get_prediction_statistics, hnil])
    have hlen : ((preds.filterMap BatchItem.okResult).length : ℚ) ≠ 0 := by
      exact_mod_cast fun h => hne (List.length_eq_zero.mp (by exact_mod_cast h))
    constructor
    · simp only [get_prediction_statistics, List.isEmpty_iff, hne, if_false]
      field_simp
    · simp only [get_prediction_statistics, List.isEmpty_iff, hne, if_false]
      field_simp
  · intro lbl
    simp only [get_prediction_statistics, List.count_eq_countP, List.countP_map]
    exact List.countP_congr (by intro r hr; simp [Function.comp])

/- ## C10 -/

/-- C10: over any session log content, the totals add up: the error count is
exactly the number of records carrying an error field, the successful count
is exactly the number of records not carrying one, and total = successful +
errors. -/
theorem session_statistics_count_invariant (recs : List BatchItem) :
    (get_session_statistics_content recs).total_predictions =
      (get_session_statistics_content recs).successful_predictions +
        (get_session_statistics_content recs).errors ∧
    (get_session_statistics_content recs).errors = recs.countP (fun r => r.isErr) ∧
    (get_session_statistics_content recs).successful_predictions =
      recs.countP (fun r => !r.isErr) := by
  have hle : recs.countP (fun r => r.isErr) ≤ recs.length := List.countP_le_length _
  have hsplit := List.length_eq_countP_add_countP (fun r => BatchItem.isErr r) recs
  have hcongr : recs.countP (fun a => decide ¬(BatchItem.isErr a) = true) =
      recs.countP (fun r => !r.isErr) :=
    List.countP_congr (by intro r _; simp)
  rw [hcongr] at hsplit
  refine ⟨?_, rfl, ?_⟩ <;> simp only [get_session_statistics_content] <;> omega

/- ## C6 -/

/-- Folding `min` over a list starting from `a` yields `a` or a member. -/
theorem foldl_min_mem (xs : List ℚ) : ∀ a, xs.foldl min a = a ∨ xs.foldl min a ∈ xs := by
  induction xs with
  | nil => intro a; simp
  | cons x xs ih =>
    intro a
    rcases ih (min a x) with h | h
    · rcases min_choice a x with hm | hm
      · exact Or.inl (by rw [List.foldl_cons, h, hm])
      · exact Or.inr (by rw [List.foldl_cons, h, hm]; exact List.mem_cons_self x xs)
    · exact Or.inr (List.mem_cons_of_mem x h)

/-- Folding `min` is a lower bound for the seed and every member. -/
theorem foldl_min_le (xs : List ℚ) :
    ∀ a, xs.foldl min a ≤ a ∧ ∀ x ∈ xs, xs.foldl min a ≤ x := by
  induction xs with
  | nil => intro a; simp
  | cons x xs ih =>
    intro a
    obtain ⟨h1, h2⟩ := ih (min a x)
    refine ⟨le_trans h1 (min_le_left a x), ?_⟩
    intro y hy
    rcases List.mem_cons.mp hy with rfl | hy
    · exact le_trans h1 (min_le_right a y)
    · exact h2 y hy

/-- Folding `max` over a list starting from `a` yields `a` or a member. -/
theorem foldl_max_mem (xs : List ℚ) : ∀ a, xs.foldl max a = a ∨ xs.foldl max a ∈ xs := by
  induction xs with
  | nil => intro a; simp
  | cons x xs ih =>
    intro a
    rcases ih (max a x) with h | h
    · rcases max_choice a x with hm | hm
      · exact Or.inl (by rw [List.foldl_cons, h, hm])
      · exact Or.inr (by rw [List.foldl_cons, h, hm]; exact List.mem_cons_self x xs)
    · exact Or.inr (List.mem_cons_of_mem x h)

/-- Folding `max` is an upper bound for the seed and every member. -/
theorem foldl_max_le (xs : List ℚ) :
    ∀ a, a ≤ xs.foldl max a ∧ ∀ x ∈ xs, x ≤ xs.foldl max a := by
  induction xs with
  | nil => intro a; simp
  | cons x xs ih =>
    intro a
    obtain ⟨h1, h2⟩ := ih (max a x)
    refine ⟨le_trans (le_max_left a x) h1, ?_⟩
    intro y hy
    rcases List.mem_cons.mp hy with rfl | hy
    · exact le_trans (le_max_right a y) h1
    · exact h2 y hy

theorem listMin_spec (l : List ℚ) (h : l ≠ []) :
    listMin l ∈ l ∧ ∀ x ∈ l, listMin l ≤ x := by
  match l with
  | x :: xs =>
    constructor
    · rcases foldl_min_mem xs x with h1 | h1
      · exact List.mem_cons.mpr (Or.inl (by rw [listMin, h1]))
      · exact List.mem_cons_of_mem x (by rw [listMin]; exact h1)
    · intro y hy
      rcases List.mem_cons.mp hy with rfl | hy
      · exact (foldl_min_le xs y).1
      · exact (foldl_min_le xs x).2 y hy

theorem listMax_spec (l : List ℚ) (h : l ≠ []) :
    listMax l ∈ l ∧ ∀ x ∈ l, x ≤ listMax l := by
  match l with
  | x :: xs =>
    constructor
    · rcases foldl_max_mem xs x with h1 | h1
      · exact List.mem_cons.mpr (Or.inl (by rw [listMax, h1]))
      · exact List.mem_cons_of_mem x (by rw [listMax]; exact h1)
    · intro y hy
      rcases List.mem_cons.mp hy with rfl | hy
      · exact (foldl_max_le xs y).1
      · exact (foldl_max_le xs x).2 y hy

/-- The statistics of an existing but empty session log are the zeroed
dictionary. -/
theorem session_content_nil : get_session_statistics_content [] = zeroSessionStats := by
  unfold get_session_statistics_content zeroSessionStats
  simp only [List.filterMap_nil, List.length_nil, List.countP_nil, List.isEmpty_nil,
    if_true, Nat.sub_zero, List.count_nil]

/-- C6 counterexample: a session in which no record was ever logged never
created its log file, so `get_session_statistics` returns the empty
dictionary (modelled `none`), not the zeroed statistics dictionary the claim
describes; the zeroed dictionary is produced only when the log file exists
with no records. -/
theorem session_statistics_fresh_session_cex :
    get_session_statistics fresh_session_log = none ∧
    get_session_statistics fresh_session_log ≠ some zeroSessionStats ∧
    get_session_statistics (some []) = some zeroSessionStats := by
  refine ⟨rfl, by simp [get_session_statistics, fresh_session_log], ?_⟩
  simp only [get_session_statistics, Option.some.injEq]
  exact session_content_nil

/-- Counting one value in the image of a `filterMap` is counting the
preimages mapped onto it. -/
theorem count_filterMap_eq_countP {α : Type} (f : α → Option String) (l : List α) (b : String) :
    (l.filterMap f).count b = l.countP (fun a => f a == some b) := by
  induction l with
  | nil => rfl
  | cons x xs ih =>
    cases hfx : f x with
    | none => simp [List.filterMap_cons, hfx, List.countP_cons, ih]
    | some v =>
      by_cases hv : v = b
      · subst hv
        simp [List.filterMap_cons, hfx, List.countP_cons, List.count_cons, ih]
      · simp [List.filterMap_cons, hfx, List.countP_cons, List.count_cons, ih, hv]

/-- C6 (amended): `get_session_statistics` is a pure function of the full
durable log content.  Over any existing log it returns the record count, the
error and successful counts, the guarded mean/min/max/variance of the
confidences of successful records, and the label histogram; an existing but
empty log yields the zeroed dictionary; a log file never created (no record
ever logged in the session) yields the empty dictionary instead — in neither
case does the call fail. -/
theorem session_statistics_characterisation (recs : List BatchItem) :
    get_session_statistics (some recs) = some (get_session_statistics_content recs) ∧
    (get_session_statistics_content recs).total_predictions = recs.length ∧
    (get_session_statistics_content recs).errors = recs.countP (fun r => r.isErr) ∧
    (get_session_statistics_content recs).successful_predictions =
      recs.countP (fun r => !r.isErr) ∧
    (∀ lbl, (get_session_statistics_content recs).species_distribution lbl =
      recs.countP (fun r => (r.okResult).map (fun x => x.predicted_species) == some lbl)) ∧
    (∀ confs, confs = recs.filterMap (fun r => (r.okResult).map (fun x => x.confidence)) →
      confs ≠ [] →
      (get_session_statistics_content recs).average_confidence * confs.length = confs.sum ∧
      (get_session_statistics_content recs).min_confidence ∈ confs ∧
      (get_session_statistics_content recs).max_confidence ∈ confs ∧
      (∀ c ∈ confs, (get_session_statistics_content recs).min_confidence ≤ c ∧
        c ≤ (get_session_statistics_content recs).max_confidence) ∧
      (get_session_statistics_content recs).std_confidence_sq * confs.length =
        (confs.map (fun c => (c - confs.sum / confs.length) ^ 2)).sum) ∧
    (recs = [] → get_session_statistics_content recs = zeroSessionStats) ∧
    get_session_statistics fresh_session_log = none := by
  have hsplit := List.length_eq_countP_add_countP (fun r => BatchItem.isErr r) recs
  have hcongr : recs.countP (fun a => decide ¬(BatchItem.isErr a) = true) =
      recs.countP (fun r => !r.isErr) :=
    List.countP_congr (by intro r _; simp)
  rw [hcongr] at hsplit
  have hle : recs.countP (fun r => r.isErr) ≤ recs.length := List.countP_le_length _
  refine ⟨rfl, rfl, rfl, ?_, ?_, ?_, fun h => by rw [h]; exact session_content_nil, rfl⟩
  · simp only [get_session_statistics_content]
    omega
  · intro lbl
    simp only [get_session_statistics_content]
    exact count_filterMap_eq_countP _ recs lbl
  · intro confs hconfs hne
    have hlen : ((confs.length : ℚ)) ≠ 0 := by
      have : confs.length ≠ 0 := fun h => hne (List.length_eq_zero.mp h)
      exact_mod_cast this
    have hemp : confs.isEmpty = false := by
      simp [List.isEmpty_iff, hne]
    simp only [get_session_statistics_content, ← hconfs, hemp, Bool.false_eq_true, if_false]
    refine ⟨by field_simp, ?_, ?_, ?_, by field_simp⟩
    · exact (listMin_spec confs hne).1
    · exact (listMax_spec confs hne).1
    · intro c hc
      exact ⟨(listMin_spec confs hne).2 c hc, (listMax_spec confs hne).2 c hc⟩

/- ## C7 -/

/-- C7 counterexample: a top-level file named `a.JPG` has a valid extension
up to letter case, yet recursive enumeration (per-extension `rglob` with
lowercase patterns, case-sensitive on a POSIX filesystem) returns nothing,
while non-recursive enumeration (which lowercases the suffix before
comparing) does include it — so the claim that a case-differing extension is
included in both modes fails in recursive mode. -/
theorem predict_directory_case_cex :
    list_image_files [⟨"a.JPG".toList, true⟩] true = [] ∧
    list_image_files [⟨"a.JPG".toList, true⟩] false = [⟨"a.JPG".toList, true⟩] ∧
    lowerName (pySuffix "a.JPG".toList) ∈ valid_extensions := by
  refine ⟨by decide, by decide, by decide⟩

/-- Membership in the per-extension accumulation loop of the recursive
branch. -/
theorem mem_foldl_filter_append (q : List Char → FileEntry → Bool) (fs : List FileEntry) :
    ∀ (exts : List (List Char)) (acc : List FileEntry) (a : FileEntry),
      (a ∈ exts.foldl (fun acc2 ext => acc2 ++ fs.filter (q ext)) acc ↔
        a ∈ acc ∨ ∃ ext ∈ exts, a ∈ fs.filter (q ext)) := by
  intro exts
  induction exts with
  | nil => intro acc a; simp
  | cons x xs ih =>
    intro acc a
    rw [List.foldl_cons, ih]
    simp only [List.mem_append, List.mem_cons]
    constructor
    · rintro ((h | h) | ⟨ext, hext, hmem⟩)
      · exact Or.inl h
      · exact Or.inr ⟨x, Or.inl rfl, h⟩
      · exact Or.inr ⟨ext, Or.inr hext, hmem⟩
    · rintro (h | ⟨ext, (rfl | hext), hmem⟩)
      · exact Or.inl (Or.inl h)
      · exact Or.inl (Or.inr hmem)
      · exact Or.inr ⟨ext, hext, hmem⟩

/-- C7 (amended): `predict_directory` delegates to `predict_batch` on the
enumerated file list; non-recursive enumeration contains exactly the
top-level files whose suffix, lowercased, is one of `.jpg/.jpeg/.png/.bmp`
(case-insensitive, as claimed), while recursive enumeration contains exactly
the files — at any depth — whose name ends with one of those four lowercase
extensions literally, i.e. case-sensitively, so an uppercase extension is
included only by the non-recursive mode. -/
theorem predict_directory_enumeration {Img : Type} (e : ℚ → ℚ)
    (decode : String → Except String Img) (p : Predictor Img) (fs : List FileEntry)
    (recursive : Bool) (f : FileEntry) :
    (f ∈ list_image_files fs true ↔
      f ∈ fs ∧ ∃ ext ∈ valid_extensions, ext.isSuffixOf f.name) ∧
    (f ∈ list_image_files fs false ↔
      f ∈ fs ∧ f.top = true ∧ lowerName (pySuffix f.name) ∈ valid_extensions) ∧
    predict_directory e decode p fs recursive =
      predict_batch e decode p ((list_image_files fs recursive).map (fun x => String.mk x.name)) := by
  refine ⟨?_, ?_, rfl⟩
  · unfold list_image_files
    rw [if_pos rfl, mem_foldl_filter_append]
    simp only [List.not_mem_nil, false_or, List.mem_filter]
    constructor
    · rintro ⟨ext, hext, hf, hsuf⟩
      exact ⟨hf, ext, hext, hsuf⟩
    · rintro ⟨hf, ext, hext, hsuf⟩
      exact ⟨ext, hext, hf, hsuf⟩
  · unfold list_image_files
    simp [List.mem_filter]

/- ## C4 -/

theorem softmax_length (e : ℚ → ℚ) (scores : List ℚ) :
    (softmax e scores).length = scores.length := by
  simp [softmax]

/-- Full characterisation of the `torch.max` scan: either nothing beats the
running best (result unchanged, every element bounded by it), or the result
is the first element strictly exceeding the running best that every element
is bounded by — the value of the overall maximum with the index of its first
occurrence. -/
theorem firstMaxFrom_spec (l : List ℚ) :
    ∀ (bi s : Nat) (bv : ℚ),
      (firstMaxFrom bi bv s l = (bi, bv) ∧ ∀ x ∈ l, x ≤ bv) ∨
      (∃ j, ∃ hj : j < l.length,
        (firstMaxFrom bi bv s l).1 = s + j ∧
        (firstMaxFrom bi bv s l).2 = l.get ⟨j, hj⟩ ∧
        bv < (firstMaxFrom bi bv s l).2 ∧
        (∀ x ∈ l, x ≤ (firstMaxFrom bi bv s l).2) ∧
        (∀ j2, ∀ hj2 : j2 < l.length, j2 < j →
          l.get ⟨j2, hj2⟩ < (firstMaxFrom bi bv s l).2)) := by
  induction l with
  | nil => intro bi s bv; exact Or.inl ⟨rfl, by simp⟩
  | cons x xs ih =>
    intro bi s bv
    by_cases h : bv < x
    · have heq : firstMaxFrom bi bv s (x :: xs) = firstMaxFrom s x (s + 1) xs := by
        simp [firstMaxFrom, h]
      rcases ih s (s + 1) x with ⟨ha, hb⟩ | ⟨j, hj, h1, h2, h3, h4, h5⟩
      · refine Or.inr ⟨0, by simp, ?_, ?_, ?_, ?_, ?_⟩
        · rw [heq, ha]; rfl
        · rw [heq, ha]; rfl
        · rw [heq, ha]; exact h
        · rw [heq, ha]
          intro y hy
          rcases List.mem_cons.mp hy with rfl | hy
          · exact le_refl y
          · exact hb y hy
        · intro j2 hj2 hlt; omega
      · refine Or.inr ⟨j + 1, by simpa using Nat.succ_lt_succ hj, ?_, ?_, ?_, ?_, ?_⟩
        · rw [heq, h1]; omega
        · rw [heq, h2]; rfl
        · rw [heq]; exact lt_trans h h3
        · rw [heq]
          intro y hy
          rcases List.mem_cons.mp hy with rfl | hy
          · exact le_of_lt h3
          · exact h4 y hy
        · rw [heq]
          intro j2 hj2 hlt
          match j2 with
          | 0 => exact h3
          | j2 + 1 =>
            exact h5 j2 (by simpa using Nat.lt_of_succ_lt_succ hj2) (Nat.lt_of_succ_lt_succ hlt)
    · have heq : firstMaxFrom bi bv s (x :: xs) = firstMaxFrom bi bv (s + 1) xs := by
        simp [firstMaxFrom, h]
      have hxle : x ≤ bv := le_of_not_lt h
      rcases ih bi (s + 1) bv with ⟨ha, hb⟩ | ⟨j, hj, h1, h2, h3, h4, h5⟩
      · refine Or.inl ⟨by rw [heq, ha], ?_⟩
        intro y hy
        rcases List.mem_cons.mp hy with rfl | hy
        · exact hxle
        · exact hb y hy
      · refine Or.inr ⟨j + 1, by simpa using Nat.succ_lt_succ hj, ?_, ?_, ?_, ?_, ?_⟩
        · rw [heq, h1]; omega
        · rw [heq, h2]; rfl
        · rw [heq]; exact h3
        · rw [heq]
          intro y hy
          rcases List.mem_cons.mp hy with rfl | hy
          · exact le_trans hxle (le_of_lt h3)
          · exact h4 y hy
        · rw [heq]
          intro j2 hj2 hlt
          match j2 with
          | 0 => exact lt_of_le_of_lt hxle h3
          | j2 + 1 =>
            exact h5 j2 (by simpa using Nat.lt_of_succ_lt_succ hj2) (Nat.lt_of_succ_lt_succ hlt)

/-- The `torch.max` call of `predict_single`: the scan over `c0 :: rest`
seeded with `c0` returns the overall maximum together with the index of its
first occurrence. -/
theorem firstMax_cons_spec (c0 : ℚ) (rest : List ℚ) :
    ∃ i, ∃ hi : i < (c0 :: rest).length,
      (firstMaxFrom 0 c0 1 rest).1 = i ∧
      (c0 :: rest).get ⟨i, hi⟩ = (firstMaxFrom 0 c0 1 rest).2 ∧
      (∀ x ∈ c0 :: rest, x ≤ (firstMaxFrom 0 c0 1 rest).2) ∧
      (∀ j2, ∀ hj2 : j2 < (c0 :: rest).length, j2 < i →
        (c0 :: rest).get ⟨j2, hj2⟩ < (firstMaxFrom 0 c0 1 rest).2) := by
  rcases firstMaxFrom_spec rest 0 1 c0 with ⟨ha, hb⟩ | ⟨j, hj, h1, h2, h3, h4, h5⟩
  · refine ⟨0, by simp, by rw [ha], by rw [ha]; rfl, ?_, ?_⟩
    · rw [ha]
      intro y hy
      rcases List.mem_cons.mp hy with rfl | hy
      · exact le_refl y
      · exact hb y hy
    · intro j2 hj2 hlt; omega
  · refine ⟨j + 1, by simpa using Nat.succ_lt_succ hj, by omega, h2.symm, ?_, ?_⟩
    · intro y hy
      rcases List.mem_cons.mp hy with rfl | hy
      · exact le_of_lt h3
      · exact h4 y hy
    · intro j2 hj2 hlt
      match j2 with
      | 0 => exact h3
      | j2 + 1 =>
        exact h5 j2 (by simpa using Nat.lt_of_succ_lt_succ hj2) (Nat.lt_of_succ_lt_succ hlt)

theorem topk_sorted (k : Nat) (probs : List ℚ) : List.Sorted topRel (topk k probs) :=
  List.Pairwise.sublist (List.take_sublist k _) (List.sorted_insertionSort topRel probs.enum)

theorem topk_split (k : Nat) (probs : List ℚ) :
    (topk k probs ++ (List.insertionSort topRel probs.enum).drop k).Perm probs.enum := by
  rw [topk, List.take_append_drop]
  exact List.perm_insertionSort topRel probs.enum

theorem topk_dominates (k : Nat) (probs : List ℚ) :
    ∀ a ∈ topk k probs, ∀ b ∈ (List.insertionSort topRel probs.enum).drop k, topRel a b := by
  have h := List.sorted_insertionSort topRel probs.enum
  rw [List.Sorted, ← List.take_append_drop k (List.insertionSort topRel probs.enum),
    List.pairwise_append] at h
  exact h.2.2

theorem topk_length (k : Nat) (probs : List ℚ) :
    (topk k probs).length = min k probs.length := by
  rw [topk, List.length_take, (List.perm_insertionSort topRel probs.enum).length_eq,
    List.enum_length]

theorem topk_mem_enum (k : Nat) (probs : List ℚ) :
    ∀ a ∈ topk k probs, a ∈ probs.enum := fun _ ha =>
  (List.perm_insertionSort topRel probs.enum).subset
    ((List.take_sublist k _).subset ha)

/-- C4: on a loaded predictor whose model produces one score per species
(and at least one), `predict_single` succeeds and returns: the label of the
arg-max softmax probability (first index on ties) with that probability as
confidence, `is_confident` exactly when the confidence reaches the
construction-time threshold, and as `top_predictions` the labels and
probabilities of `min(3, N)` (index, probability) pairs that are sorted by
descending probability with ties broken towards the lower class index and
that dominate, in that same order, every pair left out. -/
theorem predict_single_ranking {Img : Type} (e : ℚ → ℚ) (decode : String → Except String Img)
    (p : Predictor Img) (m : Img → List ℚ) (image_path : String) (img : Img)
    (hload : p.is_loaded = true) (hm : p.model = some m) (hdec : decode image_path = .ok img)
    (hN : (m img).length = p.species_mapping.length) (hpos : 0 < (m img).length) :
    ∃ r, predict_single e decode p image_path = .ok r ∧
      r.image_path = image_path ∧
      (∃ i, ∃ hi : i < (softmax e (m img)).length,
        (softmax e (m img)).get ⟨i, hi⟩ = r.confidence ∧
        (∀ x ∈ softmax e (m img), x ≤ r.confidence) ∧
        (∀ j, ∀ hj : j < (softmax e (m img)).length, j < i →
          (softmax e (m img)).get ⟨j, hj⟩ < r.confidence) ∧
        (∃ hi2 : i < p.species_mapping.length,
          r.predicted_species = p.species_mapping.get ⟨i, hi2⟩)) ∧
      (r.is_confident = true ↔ p.confidence_threshold ≤ r.confidence) ∧
      r.top_predictions.length = min 3 p.species_mapping.length ∧
      (∃ chosen rest2,
        r.top_predictions = chosen.map
          (fun iv => (p.species_mapping.getD iv.1 "", iv.2)) ∧
        List.Sorted topRel chosen ∧
        (chosen ++ rest2).Perm (softmax e (m img)).enum ∧
        (∀ a ∈ chosen, ∀ b ∈ rest2, topRel a b) ∧
        (∀ a ∈ chosen, ∃ ha : a.1 < (softmax e (m img)).length,
          (softmax e (m img)).get ⟨a.1, ha⟩ = a.2)) := by
  obtain ⟨sm, th, mo, il⟩ := p
  simp only at hload hm hN ⊢
  subst hload
  subst hm
  have hslen : (softmax e (m img)).length = sm.length := by
    rw [softmax_length]; exact hN
  obtain ⟨c0, rest, hp⟩ : ∃ c0 rest, softmax e (m img) = c0 :: rest := by
    cases hsm : softmax e (m img) with
    | nil =>
      exfalso
      have h0 : (m img).length = 0 := by rw [← softmax_length e (m img), hsm]; rfl
      omega
    | cons a l => exact ⟨a, l, rfl⟩
  obtain ⟨i, hi, hbi, hget, hmax, hfirst⟩ := firstMax_cons_spec c0 rest
  have hlen_cr : (c0 :: rest).length = sm.length := by rw [← hp]; exact hslen
  have hg1 : ¬ (sm.length ≤ (firstMaxFrom 0 c0 1 rest).1) := by
    rw [hbi]; omega
  have hg2 : ¬ ((c0 :: rest).length < min 3 sm.length) := by
    have := Nat.min_le_right 3 sm.length
    omega
  have hidxlt : ∀ a ∈ topk (min 3 sm.length) (c0 :: rest), a.1 < sm.length := by
    intro a ha
    obtain ⟨ai, av⟩ := a
    have hmem := List.mem_enum (topk_mem_enum _ _ _ ha)
    have := hmem.1
    simpa [hlen_cr] using this
  have hg3 : ¬ ((topk (min 3 sm.length) (c0 :: rest)).any
      (fun iv => decide (sm.length ≤ iv.1)) = true) := by
    rw [List.any_eq_true]
    rintro ⟨x, hx, hfx⟩
    have := hidxlt x hx
    simp only [decide_eq_true_eq] at hfx
    omega
  have heq : predict_single e decode ⟨sm, th, some m, true⟩ image_path = .ok
      { image_path := image_path
        predicted_species := sm.getD (firstMaxFrom 0 c0 1 rest).1 ""
        confidence := (firstMaxFrom 0 c0 1 rest).2
        is_confident := decide (th ≤ (firstMaxFrom 0 c0 1 rest).2)
        top_predictions := (topk (min 3 sm.length) (c0 :: rest)).map
          (fun iv => (sm.getD iv.1 "", iv.2)) } := by
    unfold predict_single
    simp only [hdec, hp, if_true]
    rw [if_neg hg1, if_neg hg2, if_neg hg3]
  refine ⟨_, heq, rfl, ?_, ?_, ?_, ?_⟩
  · rw [hp]
    refine ⟨i, hi, hget, hmax, hfirst, hlen_cr ▸ hi, ?_⟩
    show sm.getD (firstMaxFrom 0 c0 1 rest).1 "" = _
    simp only [List.get_eq_getElem]
    rw [hbi]
    exact List.getD_eq_getElem sm "" (hlen_cr ▸ hi)
  · simp [decide_eq_true_eq]
  · simp only [List.length_map]
    rw [topk_length, hlen_cr]
    omega
  · rw [hp]
    refine ⟨topk (min 3 sm.length) (c0 :: rest),
      (List.insertionSort topRel (c0 :: rest).enum).drop (min 3 sm.length), rfl,
      topk_sorted _ _, topk_split _ _, topk_dominates _ _, ?_⟩
    intro a ha
    obtain ⟨ai, av⟩ := a
    have hmem := List.mem_enum (topk_mem_enum _ _ _ ha)
    refine ⟨hmem.1, ?_⟩
    simp only [List.get_eq_getElem]
    exact hmem.2.symm

/-- Witness for C4 at the specification's 3-species example (scores
`[5.0, 1.0, 0.1]` over Lion/Elephant/Zebra, threshold `0.5`): the hypotheses
hold by computation and the ranking theorem applies. -/
theorem predict_single_ranking_witness :
    ((⟨["Lion", "Elephant", "Zebra"], 1/2, some (fun _ => [5, 1, 1/10]), true⟩ :
        Predictor Unit).is_loaded = true ∧
      ((fun _ : Unit => ([5, 1, 1/10] : List ℚ)) ()).length =
        (["Lion", "Elephant", "Zebra"] : List String).length ∧
      0 < ((fun _ : Unit => ([5, 1, 1/10] : List ℚ)) ()).length) ∧
    (∃ r, predict_single id (fun _ => Except.ok ())
        (⟨["Lion", "Elephant", "Zebra"], 1/2, some (fun _ => [5, 1, 1/10]), true⟩ :
          Predictor Unit) "img.jpg" = .ok r ∧
      r.image_path = "img.jpg" ∧
      (∃ i, ∃ hi : i < (softmax id [5, 1, 1/10]).length,
        (softmax id [5, 1, 1/10]).get ⟨i, hi⟩ = r.confidence ∧
        (∀ x ∈ softmax id [5, 1, 1/10], x ≤ r.confidence) ∧
        (∀ j, ∀ hj : j < (softmax id [5, 1, 1/10]).length, j < i →
          (softmax id [5, 1, 1/10]).get ⟨j, hj⟩ < r.confidence) ∧
        (∃ hi2 : i < (["Lion", "Elephant", "Zebra"] : List String).length,
          r.predicted_species = (["Lion", "Elephant", "Zebra"] : List String).get ⟨i, hi2⟩)) ∧
      (r.is_confident = true ↔ (1 : ℚ)/2 ≤ r.confidence) ∧
      r.top_predictions.length = min 3 (["Lion", "Elephant", "Zebra"] : List String).length ∧
      (∃ chosen rest2,
        r.top_predictions = chosen.map
          (fun iv => ((["Lion", "Elephant", "Zebra"] : List String).getD iv.1 "", iv.2)) ∧
        List.Sorted topRel chosen ∧
        (chosen ++ rest2).Perm (softmax id [5, 1, 1/10]).enum ∧
        (∀ a ∈ chosen, ∀ b ∈ rest2, topRel a b) ∧
        (∀ a ∈ chosen, ∃ ha : a.1 < (softmax id [5, 1, 1/10]).length,
          (softmax id [5, 1, 1/10]).get ⟨a.1, ha⟩ = a.2))) :=
  ⟨⟨rfl, rfl, by decide⟩,
    predict_single_ranking id (fun _ => Except.ok ())
      ⟨["Lion", "Elephant", "Zebra"], 1/2, some (fun _ => [5, 1, 1/10]), true⟩
      (fun _ => [5, 1, 1/10]) "img.jpg" () rfl rfl rfl rfl (by decide)⟩

/- ## C8 and C9: lemmas on the training loop -/

theorem fit_go_length_le (frz : Bool) (unfA : Nat) :
    ∀ (ls : List ℚ) (st : FitState) (e : Nat),
      (fit_go frz unfA st e ls).length ≤ ls.length := by
  intro ls
  induction ls with
  | nil => intro st e; simp [fit_go]
  | cons v rest ih =>
    intro st e
    simp only [fit_go]
    split
    · simpa using ih _ (e + 1)
    · split
      · simp
      · simpa using ih _ (e + 1)

/-- Branch equation of the loop: improving epoch. -/
theorem fit_go_saved_eq (frz : Bool) (unfA : Nat) (st : FitState) (e : Nat) (v : ℚ)
    (rest : List ℚ) (h : ltBest v st.best = true) :
    fit_go frz unfA st e (v :: rest) =
      ⟨e, epoch_mask frz unfA st.mask e, v, st.best, st.pat, true, 0⟩ ::
        fit_go frz unfA ⟨epoch_mask frz unfA st.mask e, some v, 0⟩ (e + 1) rest := by
  simp [fit_go, h]

/-- Branch equation of the loop: non-improving epoch that exhausts
patience — the loop records the epoch and stops. -/
theorem fit_go_stop_eq (frz : Bool) (unfA : Nat) (st : FitState) (e : Nat) (v : ℚ)
    (rest : List ℚ) (h : ¬ ltBest v st.best = true) (h5 : 5 ≤ st.pat + 1) :
    fit_go frz unfA st e (v :: rest) =
      [⟨e, epoch_mask frz unfA st.mask e, v, st.best, st.pat, false, st.pat + 1⟩] := by
  simp [fit_go, h, h5]

/-- Branch equation of the loop: non-improving epoch with patience left. -/
theorem fit_go_next_eq (frz : Bool) (unfA : Nat) (st : FitState) (e : Nat) (v : ℚ)
    (rest : List ℚ) (h : ¬ ltBest v st.best = true) (h5 : ¬ 5 ≤ st.pat + 1) :
    fit_go frz unfA st e (v :: rest) =
      ⟨e, epoch_mask frz unfA st.mask e, v, st.best, st.pat, false, st.pat + 1⟩ ::
        fit_go frz unfA ⟨epoch_mask frz unfA st.mask e, st.best, st.pat + 1⟩ (e + 1) rest := by
  simp [fit_go, h, h5]

theorem fit_go_epoch (frz : Bool) (unfA : Nat) :
    ∀ (ls : List ℚ) (st : FitState) (e : Nat) (i : Nat) (r : EpochRec),
      (fit_go frz unfA st e ls).get? i = some r → r.epoch = e + i := by
  intro ls
  induction ls with
  | nil => intro st e i r h; simp [fit_go] at h
  | cons v rest ih =>
    intro st e i r h
    by_cases hs : ltBest v st.best = true
    · rw [fit_go_saved_eq frz unfA st e v rest hs] at h
      match i with
      | 0 =>
        simp only [List.get?_cons_zero, Option.some.injEq] at h
        rw [← h]
        rfl
      | i + 1 =>
        rw [List.get?_cons_succ] at h
        rw [ih _ (e + 1) i r h]
        omega
    · by_cases h5 : 5 ≤ st.pat + 1
      · rw [fit_go_stop_eq frz unfA st e v rest hs h5] at h
        match i with
        | 0 =>
          simp only [List.get?_cons_zero, Option.some.injEq] at h
          rw [← h]
          rfl
        | i + 1 => simp at h
      · rw [fit_go_next_eq frz unfA st e v rest hs h5] at h
        match i with
        | 0 =>
          simp only [List.get?_cons_zero, Option.some.injEq] at h
          rw [← h]
          rfl
        | i + 1 =>
          rw [List.get?_cons_succ] at h
          rw [ih _ (e + 1) i r h]
          omega

theorem foldBest_cons (b : Option ℚ) (v : ℚ) (l : List ℚ) :
    foldBest b (v :: l) = foldBest (if ltBest v b then some v else b) l := rfl

/-- How the mask formula advances by one epoch. -/
theorem mask_step (frz : Bool) (unfA e ep : Nat) (m : List Bool)
    (hep : e + 1 ≤ ep) :
    (if frz = true ∧ e + 1 ≤ unfA ∧ unfA ≤ ep
      then unfreeze_backbone_mask (epoch_mask frz unfA m e)
      else epoch_mask frz unfA m e) =
    (if frz = true ∧ e ≤ unfA ∧ unfA ≤ ep then unfreeze_backbone_mask m else m) := by
  by_cases hf : frz = true
  · by_cases he : e = unfA
    · subst he
      have h1 : ¬ (frz = true ∧ e + 1 ≤ e ∧ e ≤ ep) := by rintro ⟨_, a, _⟩; omega
      have h2 : frz = true ∧ e ≤ e ∧ e ≤ ep := ⟨hf, le_refl e, by omega⟩
      rw [if_neg h1, if_pos h2]
      unfold epoch_mask
      rw [if_pos ⟨hf, rfl⟩]
    · have hmask : epoch_mask frz unfA m e = m := by
        unfold epoch_mask
        rw [if_neg (fun hc => he hc.2)]
      rw [hmask]
      by_cases hcond : e + 1 ≤ unfA ∧ unfA ≤ ep
      · rw [if_pos ⟨hf, hcond⟩, if_pos ⟨hf, by omega, hcond.2⟩]
      · have h1 : ¬ (frz = true ∧ e + 1 ≤ unfA ∧ unfA ≤ ep) := fun hc => hcond hc.2
        have h2 : ¬ (frz = true ∧ e ≤ unfA ∧ unfA ≤ ep) := by
          rintro ⟨_, a, b⟩
          exact hcond ⟨by omega, b⟩
        rw [if_neg h1, if_neg h2]
  · have hmask : epoch_mask frz unfA m e = m := by
      unfold epoch_mask
      rw [if_neg (fun hc => hf hc.1)]
    rw [hmask, if_neg (fun hc => hf hc.1), if_neg (fun hc => hf hc.1)]

/-- The shape of the mask at the start of the first epoch of a tail call. -/
theorem epoch_mask_eq_head (frz : Bool) (unfA : Nat) (m : List Bool) (e : Nat) :
    epoch_mask frz unfA m e =
      (if frz = true ∧ e ≤ unfA ∧ unfA ≤ e then unfreeze_backbone_mask m else m) := by
  unfold epoch_mask
  by_cases hf : frz = true
  · by_cases he : e = unfA
    · rw [if_pos ⟨hf, he⟩, if_pos ⟨hf, by omega, by omega⟩]
    · rw [if_neg (fun hc => he hc.2), if_neg (by rintro ⟨_, a, b⟩; exact he (by omega))]
  · simp [hf]

/-- Every record of a `fit_go` trace is fully determined by the prefix of
validation losses before it: its epoch number, its loss, the best loss
entering it (the fold of the prefix), the save decision, the counter update,
and the mask in force. -/
theorem fit_go_mem_spec (frz : Bool) (unfA : Nat) :
    ∀ (ls : List ℚ) (st : FitState) (e : Nat) (r : EpochRec), r ∈ fit_go frz unfA st e ls →
      ∃ k, ∃ hk : k < ls.length,
        r.epoch = e + k ∧
        r.val_loss = ls.get ⟨k, hk⟩ ∧
        r.bestBefore = foldBest st.best (ls.take k) ∧
        r.saved = ltBest r.val_loss r.bestBefore ∧
        r.patAfter = (if r.saved = true then 0 else r.patBefore + 1) ∧
        r.mask = (if frz = true ∧ e ≤ unfA ∧ unfA ≤ r.epoch
          then unfreeze_backbone_mask st.mask else st.mask) := by
  intro ls
  induction ls with
  | nil => intro st e r h; simp [fit_go] at h
  | cons v rest ih =>
    intro st e r h
    have headcase : ∀ sv pa,
        r = ⟨e, epoch_mask frz unfA st.mask e, v, st.best, st.pat, sv, pa⟩ →
        sv = ltBest v st.best →
        pa = (if sv = true then 0 else st.pat + 1) →
        ∃ k, ∃ hk : k < (v :: rest).length,
          r.epoch = e + k ∧
          r.val_loss = (v :: rest).get ⟨k, hk⟩ ∧
          r.bestBefore = foldBest st.best ((v :: rest).take k) ∧
          r.saved = ltBest r.val_loss r.bestBefore ∧
          r.patAfter = (if r.saved = true then 0 else r.patBefore + 1) ∧
          r.mask = (if frz = true ∧ e ≤ unfA ∧ unfA ≤ r.epoch
            then unfreeze_backbone_mask st.mask else st.mask) := by
      intro sv pa hr hsv hpa
      subst hr
      refine ⟨0, by simp, by simp, rfl, rfl, hsv, hpa, ?_⟩
      simp only
      rw [epoch_mask_eq_head]
    by_cases hs : ltBest v st.best = true
    · rw [fit_go_saved_eq frz unfA st e v rest hs] at h
      rcases List.mem_cons.mp h with rfl | htail
      · exact headcase true 0 rfl hs.symm (by simp)
      · obtain ⟨k, hk, hep, hval, hbb, hsv, hpa, hmk⟩ := ih _ (e + 1) r htail
        refine ⟨k + 1, by simpa using Nat.succ_lt_succ hk, by omega, hval, ?_, hsv, hpa, ?_⟩
        · rw [List.take_succ_cons, foldBest_cons, if_pos hs]
          exact hbb
        · rw [hmk]
          simp only
          exact mask_step frz unfA e r.epoch st.mask (by omega)
    · by_cases h5 : 5 ≤ st.pat + 1
      · rw [fit_go_stop_eq frz unfA st e v rest hs h5] at h
        rcases List.mem_cons.mp h with rfl | htail
        · exact headcase false (st.pat + 1) rfl
            ((Bool.eq_false_iff.mpr hs).symm)
            (by simp)
        · simp at htail
      · rw [fit_go_next_eq frz unfA st e v rest hs h5] at h
        rcases List.mem_cons.mp h with rfl | htail
        · exact headcase false (st.pat + 1) rfl
            ((Bool.eq_false_iff.mpr hs).symm)
            (by simp)
        · obtain ⟨k, hk, hep, hval, hbb, hsv, hpa, hmk⟩ := ih _ (e + 1) r htail
          refine ⟨k + 1, by simpa using Nat.succ_lt_succ hk, by omega, hval, ?_, hsv, hpa, ?_⟩
          · rw [List.take_succ_cons, foldBest_cons, if_neg hs]
            exact hbb
          · rw [hmk]
            simp only
            exact mask_step frz unfA e r.epoch st.mask (by omega)

/-- Adjacent records of a trace chain their state: the next epoch starts
with the counter the previous epoch left, and with the best loss updated
exactly when the previous epoch saved a checkpoint. -/
theorem fit_go_chain (frz : Bool) (unfA : Nat) :
    ∀ (ls : List ℚ) (st : FitState) (e : Nat),
      (∀ r, (fit_go frz unfA st e ls).get? 0 = some r →
        r.patBefore = st.pat ∧ r.bestBefore = st.best) ∧
      (∀ i r r2, (fit_go frz unfA st e ls).get? i = some r →
        (fit_go frz unfA st e ls).get? (i + 1) = some r2 →
        r2.patBefore = r.patAfter ∧
        r2.bestBefore = (if r.saved = true then some r.val_loss else r.bestBefore)) := by
  intro ls
  induction ls with
  | nil =>
    intro st e
    constructor
    · intro r h; simp [fit_go] at h
    · intro i r r2 h h2; simp [fit_go] at h
  | cons v rest ih =>
    intro st e
    by_cases hs : ltBest v st.best = true
    · rw [fit_go_saved_eq frz unfA st e v rest hs]
      constructor
      · intro r h
        simp only [List.get?_cons_zero, Option.some.injEq] at h
        rw [← h]
        exact ⟨rfl, rfl⟩
      · intro i r r2 h h2
        match i with
        | 0 =>
          simp only [List.get?_cons_zero, Option.some.injEq] at h
          rw [List.get?_cons_succ] at h2
          have hfst := (ih _ (e + 1)).1 r2 h2
          rw [← h]
          exact ⟨hfst.1, by rw [hfst.2]; simp⟩
        | i + 1 =>
          rw [List.get?_cons_succ] at h h2
          exact (ih _ (e + 1)).2 i r r2 h h2
    · by_cases h5 : 5 ≤ st.pat + 1
      · rw [fit_go_stop_eq frz unfA st e v rest hs h5]
        constructor
        · intro r h
          simp only [List.get?_cons_zero, Option.some.injEq] at h
          rw [← h]
          exact ⟨rfl, rfl⟩
        · intro i r r2 h h2
          match i with
          | 0 => simp at h2
          | i + 1 => simp at h
      · rw [fit_go_next_eq frz unfA st e v rest hs h5]
        constructor
        · intro r h
          simp only [List.get?_cons_zero, Option.some.injEq] at h
          rw [← h]
          exact ⟨rfl, rfl⟩
        · intro i r r2 h h2
          match i with
          | 0 =>
            simp only [List.get?_cons_zero, Option.some.injEq] at h
            rw [List.get?_cons_succ] at h2
            have hfst := (ih _ (e + 1)).1 r2 h2
            rw [← h]
            exact ⟨hfst.1, by rw [hfst.2]; simp⟩
          | i + 1 =>
            rw [List.get?_cons_succ] at h h2
            exact (ih _ (e + 1)).2 i r r2 h h2

/-- Every record followed by another one left the no-improvement counter
strictly below 5: the loop stops as soon as the counter reaches 5. -/
theorem fit_go_nonfinal_pat (frz : Bool) (unfA : Nat) :
    ∀ (ls : List ℚ) (st : FitState) (e : Nat) (i : Nat) (r : EpochRec),
      (fit_go frz unfA st e ls).get? i = some r →
      i + 1 < (fit_go frz unfA st e ls).length → r.patAfter < 5 := by
  intro ls
  induction ls with
  | nil => intro st e i r h hlen; simp [fit_go] at h
  | cons v rest ih =>
    intro st e i r h hlen
    by_cases hs : ltBest v st.best = true
    · rw [fit_go_saved_eq frz unfA st e v rest hs] at h hlen
      match i with
      | 0 =>
        simp only [List.get?_cons_zero, Option.some.injEq] at h
        rw [← h]
        show (0 : ℕ) < 5
        decide
      | i + 1 =>
        rw [List.get?_cons_succ] at h
        exact ih _ (e + 1) i r h (by simpa using hlen)
    · by_cases h5 : 5 ≤ st.pat + 1
      · rw [fit_go_stop_eq frz unfA st e v rest hs h5] at h hlen
        simp at hlen
      · rw [fit_go_next_eq frz unfA st e v rest hs h5] at h hlen
        match i with
        | 0 =>
          simp only [List.get?_cons_zero, Option.some.injEq] at h
          rw [← h]
          show st.pat + 1 < 5
          omega
        | i + 1 =>
          rw [List.get?_cons_succ] at h
          exact ih _ (e + 1) i r h (by simpa using hlen)

theorem fit_go_ne_nil (frz : Bool) (unfA : Nat) (st : FitState) (e : Nat) (v : ℚ)
    (rest : List ℚ) : fit_go frz unfA st e (v :: rest) ≠ [] := by
  by_cases hs : ltBest v st.best = true
  · rw [fit_go_saved_eq frz unfA st e v rest hs]; simp
  · by_cases h5 : 5 ≤ st.pat + 1
    · rw [fit_go_stop_eq frz unfA st e v rest hs h5]; simp
    · rw [fit_go_next_eq frz unfA st e v rest hs h5]; simp

/-- When the loop stops before exhausting the configured epochs, the last
executed epoch drove the no-improvement counter to exactly 5. -/
theorem fit_go_early_stop (frz : Bool) (unfA : Nat) :
    ∀ (ls : List ℚ) (st : FitState) (e : Nat), st.pat < 5 →
      (fit_go frz unfA st e ls).length < ls.length →
      ∃ r, (fit_go frz unfA st e ls).getLast? = some r ∧ r.patAfter = 5 := by
  intro ls
  induction ls with
  | nil => intro st e hpat hlen; simp [fit_go] at hlen
  | cons v rest ih =>
    intro st e hpat hlen
    by_cases hs : ltBest v st.best = true
    · rw [fit_go_saved_eq frz unfA st e v rest hs] at hlen ⊢
      have htail : (fit_go frz unfA ⟨epoch_mask frz unfA st.mask e, some v, 0⟩ (e + 1) rest).length
          < rest.length := by
        simp only [List.length_cons] at hlen
        omega
      obtain ⟨r, hr, hr5⟩ := ih _ (e + 1) (by show (0 : ℕ) < 5; decide) htail
      refine ⟨r, ?_, hr5⟩
      cases hfg : fit_go frz unfA ⟨epoch_mask frz unfA st.mask e, some v, 0⟩ (e + 1) rest with
      | nil =>
        rw [hfg] at hr
        simp at hr
      | cons t0 trest =>
        rw [hfg] at hr
        rw [List.getLast?_cons_cons]
        exact hr
    · by_cases h5 : 5 ≤ st.pat + 1
      · rw [fit_go_stop_eq frz unfA st e v rest hs h5]
        refine ⟨_, rfl, ?_⟩
        show st.pat + 1 = 5
        omega
      · rw [fit_go_next_eq frz unfA st e v rest hs h5] at hlen ⊢
        have htail : (fit_go frz unfA ⟨epoch_mask frz unfA st.mask e, st.best, st.pat + 1⟩
            (e + 1) rest).length < rest.length := by
          simp only [List.length_cons] at hlen
          omega
        obtain ⟨r, hr, hr5⟩ := ih _ (e + 1) (by show st.pat + 1 < 5; omega) htail
        refine ⟨r, ?_, hr5⟩
        cases hfg : fit_go frz unfA ⟨epoch_mask frz unfA st.mask e, st.best, st.pat + 1⟩
            (e + 1) rest with
        | nil =>
          rw [hfg] at hr
          simp at hr
        | cons t0 trest =>
          rw [hfg] at hr
          rw [List.getLast?_cons_cons]
          exact hr

/-- Unfreezing restores the all-trainable mask of a freshly frozen model. -/
theorem unfreeze_freeze_replicate (P : Nat) :
    unfreeze_backbone_mask (freeze_backbone_mask (List.replicate P true)) =
      List.replicate P true := by
  simp [unfreeze_backbone_mask, freeze_backbone_mask, List.eq_replicate_iff]

/-- With at least two parameters, the frozen mask differs from the fully
trainable mask: parameter 0 is frozen. -/
theorem freeze_mask_ne_replicate (P : Nat) (hP : 2 ≤ P) :
    freeze_backbone_mask (List.replicate P true) ≠ List.replicate P true := by
  intro hcontra
  have hrep : (List.replicate P true)[0]? = some true := by
    rw [List.getElem?_replicate, if_pos (by omega)]
  have hl : (freeze_backbone_mask (List.replicate P true))[0]? = some false := by
    rw [freeze_backbone_mask, List.getElem?_mapIdx, hrep]
    simp only [Option.map_some', List.length_replicate]
    rw [if_neg (by omega)]
  rw [hcontra, hrep] at hl
  simp at hl

theorem ltBest_none_true (a : ℚ) : ltBest a none = true := rfl

theorem ltBest_some_iff (a b : ℚ) : ltBest a (some b) = true ↔ a < b := by
  constructor
  · intro h
    exact of_decide_eq_true h
  · intro h
    exact decide_eq_true h

/-- The running best beats the fold of earlier losses exactly when it is
strictly below every one of them. -/
theorem ltBest_foldBest (v : ℚ) :
    ∀ (l : List ℚ) (b : Option ℚ),
      (ltBest v (foldBest b l) = true ↔ ltBest v b = true ∧ ∀ x ∈ l, v < x) := by
  intro l
  induction l with
  | nil => intro b; simp [foldBest]
  | cons x xs ih =>
    intro b
    have hstep : foldBest b (x :: xs) = foldBest (if ltBest x b = true then some x else b) xs := rfl
    rw [hstep, ih]
    constructor
    · rintro ⟨h1, h2⟩
      by_cases hx : ltBest x b = true
      · rw [if_pos hx] at h1
        have hvx : v < x := (ltBest_some_iff v x).mp h1
        cases b with
        | none =>
          refine ⟨rfl, ?_⟩
          intro y hy
          rcases List.mem_cons.mp hy with rfl | hy
          · exact hvx
          · exact h2 y hy
        | some bv =>
          have hxbv : x < bv := (ltBest_some_iff x bv).mp hx
          refine ⟨(ltBest_some_iff v bv).mpr (lt_trans hvx hxbv), ?_⟩
          intro y hy
          rcases List.mem_cons.mp hy with rfl | hy
          · exact hvx
          · exact h2 y hy
      · rw [if_neg hx] at h1
        refine ⟨h1, ?_⟩
        intro y hy
        rcases List.mem_cons.mp hy with rfl | hy
        · cases b with
          | none => exact absurd rfl hx
          | some bv =>
            have hvbv : v < bv := (ltBest_some_iff v bv).mp h1
            have hbvy : bv ≤ y := le_of_not_lt (fun hc => hx ((ltBest_some_iff y bv).mpr hc))
            exact lt_of_lt_of_le hvbv hbvy
        · exact h2 y hy
    · rintro ⟨h1, h2⟩
      refine ⟨?_, fun y hy => h2 y (List.mem_cons_of_mem x hy)⟩
      have hvx : v < x := h2 x (List.mem_cons_self x xs)
      by_cases hx : ltBest x b = true
      · rw [if_pos hx]
        exact (ltBest_some_iff v x).mpr hvx
      · rw [if_neg hx]
        exact h1

/-- Strict domination of a prefix, in membership and in index form. -/
theorem forall_take_iff (v : ℚ) (l : List ℚ) (k : Nat) :
    (∀ x ∈ l.take k, v < x) ↔
      (∀ j, ∀ hj : j < l.length, j < k → v < l.get ⟨j, hj⟩) := by
  constructor
  · intro h j hj hjk
    have hmem : l.get ⟨j, hj⟩ ∈ l.take k := by
      rw [List.mem_iff_getElem]
      refine ⟨j, by simp [List.length_take]; omega, ?_⟩
      rw [List.getElem_take]
      simp [List.get_eq_getElem]
    exact h _ hmem
  · intro h x hx
    rw [List.mem_iff_getElem] at hx
    obtain ⟨j, hjlen, hj⟩ := hx
    have hjlen2 : j < l.length := by
      have := List.length_take k l
      omega
    have hjk : j < k := by
      have := List.length_take k l
      omega
    have := h j hjlen2 hjk
    rw [← hj, List.getElem_take]
    simpa [List.get_eq_getElem] using this

/- ## C8 -/

/-- C8: in a `fit` run with backbone freezing requested, epochs are numbered
1, 2, ... in order, and the `requires_grad` mask in force during epoch `e`
is the frozen mask for every epoch strictly before the configured unfreeze
epoch and the fully trainable mask from the unfreeze epoch onwards — the
single transition happens exactly at the start of that epoch.  With at least
2 parameters the two masks differ, so the transition is observable through
which parameters can receive gradient updates. -/
theorem trainer_unfreeze_at_epoch (P unfA : Nat) (losses : List ℚ) :
    (∀ i r, (fit_trace P true unfA losses).get? i = some r → r.epoch = i + 1) ∧
    (∀ r ∈ fit_trace P true unfA losses,
      r.mask = (if 1 ≤ unfA ∧ unfA ≤ r.epoch
        then List.replicate P true
        else freeze_backbone_mask (List.replicate P true))) ∧
    (2 ≤ P → freeze_backbone_mask (List.replicate P true) ≠ List.replicate P true) := by
  refine ⟨?_, ?_, freeze_mask_ne_replicate P⟩
  · intro i r h
    have := fit_go_epoch true unfA losses _ 1 i r h
    omega
  · intro r hr
    obtain ⟨k, hk, hep, hval, hbb, hsv, hpa, hmk⟩ :=
      fit_go_mem_spec true unfA losses _ 1 r hr
    rw [hmk]
    show (if true = true ∧ 1 ≤ unfA ∧ unfA ≤ r.epoch
      then unfreeze_backbone_mask (init_mask P true) else init_mask P true) = _
    simp only [init_mask, if_true, true_and, unfreeze_freeze_replicate]

-- Spec example 6 for C8: unfreeze configured at epoch 3 on a 2-parameter
-- model: epochs 1 and 2 train with the frozen mask, epochs 3 and 4 with all
-- parameters trainable.
set_option maxRecDepth 10000 in
example :
    (fit_trace 2 true 3 [4, 3, 2, 1]).map (fun r => (r.epoch, r.mask)) =
      [(1, [false, true]), (2, [false, true]),
       (3, [true, true]), (4, [true, true])] := by
  with_unfolding_all decide

/- ## C9 -/

/-- C9: in every `fit` run (the checkpoint save is the `saved` flag), epoch
`k + 1` saves a checkpoint exactly when its validation loss is strictly
below every earlier validation loss (equivalently, strictly below the best
seen so far, the fold of the prefix starting from infinity), in which case
the no-improvement counter resets to 0; otherwise the counter increments by
1 from the previous epoch (the chain conjuncts), every non-final epoch ends
with a counter strictly below 5, and whenever the loop ends before the
configured number of epochs the final executed epoch drove the counter to
exactly 5. -/
theorem trainer_early_stopping (P : Nat) (frz : Bool) (unfA : Nat) (losses : List ℚ) :
    (fit_trace P frz unfA losses).length ≤ losses.length ∧
    (∀ r ∈ fit_trace P frz unfA losses,
      ∃ k, ∃ hk : k < losses.length,
        r.epoch = k + 1 ∧
        r.val_loss = losses.get ⟨k, hk⟩ ∧
        r.bestBefore = foldBest none (losses.take k) ∧
        (r.saved = true ↔ ltBest r.val_loss r.bestBefore = true) ∧
        (r.saved = true ↔ ∀ j, ∀ hj : j < losses.length, j < k →
          r.val_loss < losses.get ⟨j, hj⟩) ∧
        r.patAfter = (if r.saved = true then 0 else r.patBefore + 1)) ∧
    (∀ r, (fit_trace P frz unfA losses).get? 0 = some r →
      r.patBefore = 0 ∧ r.bestBefore = none) ∧
    (∀ i r r2, (fit_trace P frz unfA losses).get? i = some r →
      (fit_trace P frz unfA losses).get? (i + 1) = some r2 →
      r2.patBefore = r.patAfter ∧
      r2.bestBefore = (if r.saved = true then some r.val_loss else r.bestBefore)) ∧
    (∀ i r, (fit_trace P frz unfA losses).get? i = some r →
      i + 1 < (fit_trace P frz unfA losses).length → r.patAfter < 5) ∧
    ((fit_trace P frz unfA losses).length < losses.length →
      ∃ r, (fit_trace P frz unfA losses).getLast? = some r ∧ r.patAfter = 5) := by
  refine ⟨fit_go_length_le frz unfA losses _ 1, ?_, (fit_go_chain frz unfA losses _ 1).1,
    (fit_go_chain frz unfA losses _ 1).2, fit_go_nonfinal_pat frz unfA losses _ 1,
    fit_go_early_stop frz unfA losses _ 1 (by show (0 : ℕ) < 5; decide)⟩
  intro r hr
  obtain ⟨k, hk, hep, hval, hbb, hsv, hpa, hmk⟩ := fit_go_mem_spec frz unfA losses _ 1 r hr
  have hbb2 : r.bestBefore = foldBest none (losses.take k) := hbb
  refine ⟨k, hk, by omega, hval, hbb2, ⟨fun h => by rw [← hsv]; exact h,
    fun h => by rw [hsv]; exact h⟩, ?_, hpa⟩
  rw [hsv, hbb2, ltBest_foldBest]
  have := forall_take_iff r.val_loss losses k
  rw [this]
  simp [ltBest_none_true]

-- Early stopping for C9: losses improve twice, then stall for five epochs:
-- checkpoints at epochs 1 and 2, the counter climbs to 5, and the run stops
-- at epoch 7 of the 8 configured epochs.
set_option maxRecDepth 10000 in
example :
    (fit_trace 1 false 0 [5, 4, 6, 6, 6, 6, 6, 9]).map
        (fun r => (r.epoch, r.saved, r.patAfter)) =
      [(1, true, 0), (2, true, 0), (3, false, 1), (4, false, 2), (5, false, 3),
       (6, false, 4), (7, false, 5)] := by
  with_unfolding_all decide
